import Mathlib

/-
Verification of the reconciliation core of the Zoho → MXRoute forwarder
sync program (src/main.py, with the argument guards of
src/mxroute.py's add_forwarder / delete_forwarder).

Strings are modelled as lists of characters (`Str`), Python sets as lists
whose membership is what matters, and the remote MXRoute API as an oracle
saying which create/delete calls succeed.  `sync_forwarders` is embedded
as a function that, besides the three counters the Python function
returns, also records the list of add_forwarder and delete_forwarder
calls it issues, so that claims about which calls are attempted can be
stated.
-/

namespace ZMX

/-- A Python string, modelled as its list of characters. -/
abbrev Str := List Char

/-- The literal marker `@zoho.` of the translation rule
`dest = f'{user}@zoho.{domain}'` in src/main.py. -/
def marker : Str := ['@', 'z', 'o', 'h', 'o', '.']

/-- `zoho_email.split('@', 1)[0]`: the text before the first `@`. -/
def userOf (s : Str) : Str := s.takeWhile (fun c => c != '@')

/-- `zoho_email.split('@', 1)[1]`: the text after the first `@`
(meaningful when the string contains an `@`). -/
def domainOf (s : Str) : Str := (s.dropWhile (fun c => c != '@')).tail

/-- `dest = f'{user}@zoho.{domain}'` (src/main.py lines 132 and 173). -/
def destOf (s : Str) : Str := userOf s ++ marker ++ domainOf s

/-- Python's `'@zoho.' in forwarder` (src/main.py line 199). -/
def containsMarker : Str → Bool
  | '@' :: 'z' :: 'o' :: 'h' :: 'o' :: '.' :: _ => true
  | _ :: t => containsMarker t
  | [] => false

/-- Python's `forwarder.replace('@zoho.', '@')` (src/main.py line 201):
replace every non-overlapping occurrence of `@zoho.`, left to right. -/
def replaceZoho : Str → Str
  | '@' :: 'z' :: 'o' :: 'h' :: 'o' :: '.' :: t => '@' :: replaceZoho t
  | c :: t => c :: replaceZoho t
  | [] => []

/-- Replacing only the first occurrence of `@zoho.` by `@` — the
operation the specification describes for the reverse mapping. -/
def replaceZohoFirst : Str → Str
  | '@' :: 'z' :: 'o' :: 'h' :: 'o' :: '.' :: t => '@' :: t
  | c :: t => c :: replaceZohoFirst t
  | [] => []

/-- Python's `s.split('@')`: always a non-empty list of fields. -/
def splitAmp : Str → List Str
  | [] => [[]]
  | '@' :: t => [] :: splitAmp t
  | c :: t =>
    match splitAmp t with
    | [] => [[c]]
    | h :: r => (c :: h) :: r

/-- create_expected_forwarders (src/main.py lines 120–148): for each
zoho email that contains `@`, split at the first `@`; if the domain is
available, contribute `user@zoho.domain`.  The Python set is modelled by
this list up to membership. -/
def createExpectedForwarders (zohoEmails domains : List Str) : List Str :=
  match zohoEmails with
  | [] => []
  | e :: rest =>
    if '@' ∈ e ∧ domainOf e ∈ domains then
      destOf e :: createExpectedForwarders rest domains
    else
      createExpectedForwarders rest domains

/-- The remote MXRoute API, abstracted: which create and delete requests
succeed once they are actually issued over HTTP. -/
structure Oracle where
  addOk : Str → Str → Str → Bool
  delOk : Str → Str → Bool

/-- Whether `MXroute.add_forwarder(domain, user, email)` succeeds
(src/mxroute.py lines 136–142): it raises ValueError when any argument
is empty or `email` has no `@`, before any request is made; otherwise
the outcome is the remote API's. -/
def addSucceeds (o : Oracle) (domain user email : Str) : Bool :=
  if domain = [] ∨ user = [] ∨ email = [] then false
  else if '@' ∉ email then false
  else o.addOk domain user email

/-- Whether `MXroute.delete_forwarder(domain, user)` succeeds
(src/mxroute.py lines 175–178): it raises ValueError when `domain` or
`user` is empty, before any request is made; otherwise the outcome is
the remote API's. -/
def delSucceeds (o : Oracle) (domain user : Str) : Bool :=
  if domain = [] ∨ user = [] then false
  else o.delOk domain user

/-- Outcome of the add pass: the `added` and `skipped` counters and the
list of `(domain, user, dest)` triples passed to add_forwarder, in
iteration order. -/
structure AddOut where
  added : Nat
  skipped : Nat
  calls : List (Str × Str × Str)
  deriving DecidableEq

/-- Outcome of the remove pass: the `removed` counter and the list of
`(forwarder, domain, user)` triples — the existing forwarder destination
together with the `(domain, user)` arguments passed to delete_forwarder,
in iteration order. -/
structure DelOut where
  removed : Nat
  calls : List (Str × Str × Str)
  deriving DecidableEq

/-- The "Add missing forwarders" loop of sync_forwarders
(src/main.py lines 165–193).  A failing add_forwarder call is caught:
the counter is not incremented and the loop continues. -/
def addPass (o : Oracle) (domains existing : List Str) :
    List Str → AddOut
  | [] => ⟨0, 0, []⟩
  | e :: rest =>
    let r := addPass o domains existing rest
    if '@' ∈ e then
      if domainOf e ∈ domains then
        if destOf e ∈ existing then
          ⟨r.added, r.skipped + 1, r.calls⟩
        else
          if addSucceeds o (domainOf e) (userOf e) (destOf e) then
            ⟨r.added + 1, r.skipped, (domainOf e, userOf e, destOf e) :: r.calls⟩
          else
            ⟨r.added, r.skipped, (domainOf e, userOf e, destOf e) :: r.calls⟩
      else r
    else r

/-- The "Remove obsolete forwarders" loop of sync_forwarders
(src/main.py lines 195–215): for an existing forwarder containing
`@zoho.` and not expected, compute
`parts = forwarder.replace('@zoho.', '@').split('@')`; when
`len(parts) >= 2`, call `delete_forwarder(parts[1], parts[0])`.
A failing delete_forwarder call is caught: the counter is not
incremented and the loop continues. -/
def delPass (o : Oracle) (expected : List Str) :
    List Str → DelOut
  | [] => ⟨0, []⟩
  | f :: rest =>
    let r := delPass o expected rest
    if containsMarker f = true ∧ f ∉ expected then
      let parts := splitAmp (replaceZoho f)
      if 2 ≤ parts.length then
        if delSucceeds o (parts.getD 1 []) (parts.getD 0 []) then
          ⟨r.removed + 1, (f, parts.getD 1 [], parts.getD 0 []) :: r.calls⟩
        else
          ⟨r.removed, (f, parts.getD 1 [], parts.getD 0 []) :: r.calls⟩
      else r
    else r

/-- The outcome of sync_forwarders: the counters it returns, plus the
recorded add_forwarder and delete_forwarder calls. -/
structure SyncResult where
  added : Nat
  skipped : Nat
  removed : Nat
  addCalls : List (Str × Str × Str)
  delCalls : List (Str × Str × Str)
  deriving DecidableEq

/-- sync_forwarders (src/main.py lines 150–217). -/
def syncForwarders (o : Oracle) (zohoEmails domains existing : List Str) :
    SyncResult :=
  let expected := createExpectedForwarders zohoEmails domains
  let a := addPass o domains existing zohoEmails
  let d := delPass o expected existing
  ⟨a.added, a.skipped, d.removed, a.calls, d.calls⟩

/-- An oracle under which every issued request succeeds. -/
def oracleTrue : Oracle := ⟨fun _ _ _ => true, fun _ _ => true⟩

/-- Every create and delete call issued during the run succeeded. -/
def allCallsSucceed (o : Oracle) (r : SyncResult) : Prop :=
  (∀ c ∈ r.addCalls, addSucceeds o c.1 c.2.1 c.2.2 = true) ∧
  (∀ c ∈ r.delCalls, delSucceeds o c.2.1 c.2.2 = true)

/-- The existing-forwarder set after a run: the original set, plus the
destinations of the successful create calls, minus the destinations of
the forwarders successfully deleted. -/
def updatedExisting (o : Oracle) (E : List Str) (r : SyncResult) : List Str :=
  (E ++ (r.addCalls.filter
      (fun c => addSucceeds o c.1 c.2.1 c.2.2)).map (fun c => c.2.2)).filter
    (fun f => decide (f ∉ (r.delCalls.filter
      (fun c => delSucceeds o c.2.1 c.2.2)).map (fun c => c.1)))

/-- Modelled from the spec: the user the specification's reverse mapping
recovers — substitute the first occurrence of `@zoho.` back to `@` in
the destination string, split on `@`, and take the text before the
first `@`. -/
def specReverseUser (f : Str) : Str :=
  (splitAmp (replaceZohoFirst f)).getD 0 []

/-- Modelled from the spec: the domain the specification's reverse
mapping recovers — substitute the first occurrence of `@zoho.` back to
`@` in the destination string, split on `@`, and take the text between
the first and second `@`. -/
def specReverseDomain (f : Str) : Str :=
  (splitAmp (replaceZohoFirst f)).getD 1 []

/-- The filter "eligible": the Zoho address contains an `@` and its
domain is hosted on MXRoute. -/
def eligible (H : List Str) (e : Str) : Bool :=
  decide ('@' ∈ e ∧ domainOf e ∈ H)

/-! ### Lemmas about the first-`@` split -/

theorem at_not_mem_userOf (s : Str) : '@' ∉ userOf s := by
  intro h
  have := List.mem_takeWhile_imp h
  simp at this

theorem userOf_append (u x : Str) (hu : '@' ∉ u) :
    userOf (u ++ '@' :: x) = u := by
  induction u with
  | nil => simp [userOf, List.takeWhile_cons]
  | cons c t ih =>
    have hc : c ≠ '@' := fun h => hu (h ▸ List.mem_cons_self c t)
    have ht : '@' ∉ t := fun h => hu (List.mem_cons_of_mem c h)
    have hbc : (c != '@') = true := by simp [bne_iff_ne, hc]
    simp only [userOf, List.cons_append, List.takeWhile_cons, hbc] at ih ⊢
    simp [ih ht]

theorem domainOf_append (u x : Str) (hu : '@' ∉ u) :
    domainOf (u ++ '@' :: x) = x := by
  induction u with
  | nil => simp [domainOf, List.dropWhile_cons]
  | cons c t ih =>
    have hc : c ≠ '@' := fun h => hu (h ▸ List.mem_cons_self c t)
    have ht : '@' ∉ t := fun h => hu (List.mem_cons_of_mem c h)
    have hbc : (c != '@') = true := by simp [bne_iff_ne, hc]
    simp only [domainOf, List.cons_append, List.dropWhile_cons, hbc] at ih ⊢
    simp [ih ht]

theorem split_reconstruct (e : Str) (h : '@' ∈ e) :
    e = userOf e ++ '@' :: domainOf e := by
  induction e with
  | nil => cases h
  | cons c t ih =>
    by_cases hc : c = '@'
    · subst hc
      simp [userOf, domainOf, List.takeWhile_cons, List.dropWhile_cons]
    · have ht : '@' ∈ t := by
        rcases List.mem_cons.mp h with h1 | h1
        · exact absurd h1.symm hc
        · exact h1
      have hbc : (c != '@') = true := by simp [bne_iff_ne, hc]
      simp only [userOf, domainOf, List.takeWhile_cons, List.dropWhile_cons, hbc,
        if_true, List.cons_append, List.cons.injEq, true_and]
      exact ih ht

theorem userOf_destOf (e : Str) : userOf (destOf e) = userOf e := by
  have h : destOf e = userOf e ++ '@' :: ('z' :: 'o' :: 'h' :: 'o' :: '.' :: domainOf e) := by
    simp [destOf, marker]
  rw [h, userOf_append _ _ (at_not_mem_userOf e)]

theorem domainOf_destOf (e : Str) :
    domainOf (destOf e) = 'z' :: 'o' :: 'h' :: 'o' :: '.' :: domainOf e := by
  have h : destOf e = userOf e ++ '@' :: ('z' :: 'o' :: 'h' :: 'o' :: '.' :: domainOf e) := by
    simp [destOf, marker]
  rw [h, domainOf_append _ _ (at_not_mem_userOf e)]

/-! ### Lemmas about `splitAmp` -/

theorem splitAmp_cons_ne (c : Char) (t : Str) (hc : c ≠ '@') :
    splitAmp (c :: t) =
      (match splitAmp t with
        | [] => [[c]]
        | h :: r => (c :: h) :: r) := by
  rw [splitAmp]
  exact fun h => hc h

theorem splitAmp_ne_nil (s : Str) : splitAmp s ≠ [] := by
  induction s using splitAmp.induct with
  | case1 => simp [splitAmp]
  | case2 t ih => simp [splitAmp]
  | case3 c t hc hs ih =>
    rw [splitAmp_cons_ne c t (fun h => hc h), hs]
    simp
  | case4 c t hc h0 r hs ih =>
    rw [splitAmp_cons_ne c t (fun h => hc h), hs]
    simp

theorem splitAmp_getD0 (s : Str) :
    (splitAmp s).getD 0 [] = s.takeWhile (fun c => c != '@') := by
  induction s using splitAmp.induct with
  | case1 => simp [splitAmp]
  | case2 t ih => simp [splitAmp, List.takeWhile_cons]
  | case3 c t hc hs ih => exact absurd hs (splitAmp_ne_nil t)
  | case4 c t hc h0 r hs ih =>
    have hc' : c ≠ '@' := fun h => hc h
    have hbc : (c != '@') = true := by simp [bne_iff_ne, hc']
    rw [splitAmp_cons_ne c t hc', hs]
    rw [hs] at ih
    simp only [List.takeWhile_cons, hbc, if_true, List.getD] at ih ⊢
    simp at ih ⊢
    exact ih

theorem splitAmp_getD1 (s : Str) :
    (splitAmp s).getD 1 [] =
      ((s.dropWhile (fun c => c != '@')).tail).takeWhile (fun c => c != '@') := by
  induction s using splitAmp.induct with
  | case1 => simp [splitAmp]
  | case2 t ih =>
    have h0 := splitAmp_getD0 t
    simp only [splitAmp, List.dropWhile_cons]
    simp only [show (('@' : Char) != '@') = false by simp, Bool.false_eq_true,
      if_false, List.tail_cons]
    simpa [List.getD] using h0
  | case3 c t hc hs ih => exact absurd hs (splitAmp_ne_nil t)
  | case4 c t hc h0 r hs ih =>
    have hc' : c ≠ '@' := fun h => hc h
    have hbc : (c != '@') = true := by simp [bne_iff_ne, hc']
    rw [splitAmp_cons_ne c t hc', hs]
    rw [hs] at ih
    simp only [List.dropWhile_cons, hbc, if_true, List.getD] at ih ⊢
    simpa using ih

theorem splitAmp_length2 (s : Str) (h : '@' ∈ s) : 2 ≤ (splitAmp s).length := by
  induction s using splitAmp.induct with
  | case1 => cases h
  | case2 t ih =>
    have h1 : splitAmp t ≠ [] := splitAmp_ne_nil t
    have h2 : 1 ≤ (splitAmp t).length := List.length_pos.mpr h1
    simp only [splitAmp, List.length_cons]
    omega
  | case3 c t hc hs ih => exact absurd hs (splitAmp_ne_nil t)
  | case4 c t hc h0 r hs ih =>
    have hc' : c ≠ '@' := fun hh => hc hh
    have ht : '@' ∈ t := by
      rcases List.mem_cons.mp h with h1 | h1
      · exact absurd h1.symm hc'
      · exact h1
    rw [splitAmp_cons_ne c t hc', hs]
    have := ih ht
    rw [hs] at this
    simpa using this

/-! ### Lemmas about `replaceZoho`, `replaceZohoFirst`, `containsMarker` -/

theorem replaceZoho_cons_ne (c : Char) (t : Str)
    (h : ∀ t', c = '@' → t = 'z' :: 'o' :: 'h' :: 'o' :: '.' :: t' → False) :
    replaceZoho (c :: t) = c :: replaceZoho t := by
  rw [replaceZoho]
  exact h

theorem replaceZohoFirst_cons_ne (c : Char) (t : Str)
    (h : ∀ t', c = '@' → t = 'z' :: 'o' :: 'h' :: 'o' :: '.' :: t' → False) :
    replaceZohoFirst (c :: t) = c :: replaceZohoFirst t := by
  rw [replaceZohoFirst]
  exact h

theorem containsMarker_cons_ne (c : Char) (t : Str)
    (h : ∀ t', c = '@' → t = 'z' :: 'o' :: 'h' :: 'o' :: '.' :: t' → False) :
    containsMarker (c :: t) = containsMarker t := by
  rw [containsMarker]
  exact h

theorem takeWhile_replaceZoho (s : Str) :
    (replaceZoho s).takeWhile (fun c => c != '@') =
      s.takeWhile (fun c => c != '@') := by
  induction s using replaceZoho.induct with
  | case1 t ih => simp [replaceZoho, List.takeWhile_cons]
  | case2 c t h ih =>
    rw [replaceZoho_cons_ne c t h]
    by_cases hc : c = '@'
    · subst hc; simp [List.takeWhile_cons]
    · have hbc : (c != '@') = true := by simp [bne_iff_ne, hc]
      simp only [List.takeWhile_cons, hbc, if_true, ih]
  | case3 => rfl

theorem takeWhile_replaceZohoFirst (s : Str) :
    (replaceZohoFirst s).takeWhile (fun c => c != '@') =
      s.takeWhile (fun c => c != '@') := by
  induction s using replaceZohoFirst.induct with
  | case1 t => simp [replaceZohoFirst, List.takeWhile_cons]
  | case2 c t h ih =>
    rw [replaceZohoFirst_cons_ne c t h]
    by_cases hc : c = '@'
    · subst hc; simp [List.takeWhile_cons]
    · have hbc : (c != '@') = true := by simp [bne_iff_ne, hc]
      simp only [List.takeWhile_cons, hbc, if_true, ih]
  | case3 => rfl

theorem field1_replace_agree (s : Str) :
    (((replaceZoho s).dropWhile (fun c => c != '@')).tail).takeWhile (fun c => c != '@') =
      (((replaceZohoFirst s).dropWhile (fun c => c != '@')).tail).takeWhile (fun c => c != '@') := by
  induction s using replaceZoho.induct with
  | case1 t ih =>
    show (((replaceZoho ('@' :: 'z' :: 'o' :: 'h' :: 'o' :: '.' :: t)).dropWhile _).tail).takeWhile _ = _
    rw [show replaceZoho ('@' :: 'z' :: 'o' :: 'h' :: 'o' :: '.' :: t) = '@' :: replaceZoho t from rfl,
        show replaceZohoFirst ('@' :: 'z' :: 'o' :: 'h' :: 'o' :: '.' :: t) = '@' :: t from rfl]
    simp only [List.dropWhile_cons]
    simp only [show (('@' : Char) != '@') = false by simp, Bool.false_eq_true,
      if_false, List.tail_cons]
    exact takeWhile_replaceZoho t
  | case2 c t h ih =>
    rw [replaceZoho_cons_ne c t h, replaceZohoFirst_cons_ne c t h]
    by_cases hc : c = '@'
    · subst hc
      simp only [List.dropWhile_cons]
      simp only [show (('@' : Char) != '@') = false by simp, Bool.false_eq_true,
      if_false, List.tail_cons]
      rw [takeWhile_replaceZoho t, takeWhile_replaceZohoFirst t]
    · have hbc : (c != '@') = true := by simp [bne_iff_ne, hc]
      simp only [List.dropWhile_cons, hbc, if_true]
      exact ih
  | case3 => rfl

theorem at_mem_replaceZoho (s : Str) (h : '@' ∈ s) : '@' ∈ replaceZoho s := by
  induction s using replaceZoho.induct with
  | case1 t ih =>
    rw [show replaceZoho ('@' :: 'z' :: 'o' :: 'h' :: 'o' :: '.' :: t) = '@' :: replaceZoho t from rfl]
    exact List.mem_cons_self _ _
  | case2 c t hne ih =>
    rw [replaceZoho_cons_ne c t hne]
    rcases List.mem_cons.mp h with h1 | h1
    · exact h1 ▸ List.mem_cons_self _ _
    · exact List.mem_cons_of_mem c (ih h1)
  | case3 => cases h

theorem containsMarker_at_mem (s : Str) (h : containsMarker s = true) : '@' ∈ s := by
  induction s using containsMarker.induct with
  | case1 t => exact List.mem_cons_self _ _
  | case2 c t hne ih =>
    rw [containsMarker_cons_ne c t hne] at h
    exact List.mem_cons_of_mem c (ih h)
  | case3 => simp [containsMarker] at h

theorem marker_parts_length (f : Str) (h : containsMarker f = true) :
    2 ≤ (splitAmp (replaceZoho f)).length :=
  splitAmp_length2 _ (at_mem_replaceZoho f (containsMarker_at_mem f h))

/-! ### Membership characterisations of the passes -/

theorem mem_createExpectedForwarders (D H : List Str) (s : Str) :
    s ∈ createExpectedForwarders D H ↔
      ∃ e, e ∈ D ∧ '@' ∈ e ∧ domainOf e ∈ H ∧ s = destOf e := by
  induction D with
  | nil => simp [createExpectedForwarders]
  | cons e rest ih =>
    simp only [createExpectedForwarders]
    by_cases h : '@' ∈ e ∧ domainOf e ∈ H
    · rw [if_pos h]
      simp only [List.mem_cons, ih]
      constructor
      · rintro (rfl | ⟨e', he', h1, h2, rfl⟩)
        · exact ⟨e, Or.inl rfl, h.1, h.2, rfl⟩
        · exact ⟨e', Or.inr he', h1, h2, rfl⟩
      · rintro ⟨e', (rfl | he'), h1, h2, rfl⟩
        · exact Or.inl rfl
        · exact Or.inr ⟨e', he', h1, h2, rfl⟩
    · rw [if_neg h]
      rw [ih]
      constructor
      · rintro ⟨e', he', h1, h2, rfl⟩
        exact ⟨e', List.mem_cons_of_mem e he', h1, h2, rfl⟩
      · rintro ⟨e', he', h1, h2, rfl⟩
        rcases List.mem_cons.mp he' with rfl | he'
        · exact absurd ⟨h1, h2⟩ h
        · exact ⟨e', he', h1, h2, rfl⟩

theorem addPass_calls_mem (o : Oracle) (H E D : List Str) (c : Str × Str × Str) :
    c ∈ (addPass o H E D).calls ↔
      ∃ e, e ∈ D ∧ '@' ∈ e ∧ domainOf e ∈ H ∧ destOf e ∉ E ∧
        c = (domainOf e, userOf e, destOf e) := by
  induction D with
  | nil => simp [addPass]
  | cons e rest ih =>
    simp only [addPass]
    by_cases h1 : '@' ∈ e
    · rw [if_pos h1]
      by_cases h2 : domainOf e ∈ H
      · rw [if_pos h2]
        by_cases h3 : destOf e ∈ E
        · rw [if_pos h3]
          simp only [ih]
          constructor
          · rintro ⟨e', he', a1, a2, a3, rfl⟩
            exact ⟨e', List.mem_cons_of_mem e he', a1, a2, a3, rfl⟩
          · rintro ⟨e', he', a1, a2, a3, rfl⟩
            rcases List.mem_cons.mp he' with rfl | he'
            · exact absurd h3 a3
            · exact ⟨e', he', a1, a2, a3, rfl⟩
        · rw [if_neg h3]
          have hcons : ∀ out : AddOut,
              out.calls = (domainOf e, userOf e, destOf e) :: (addPass o H E rest).calls →
              (c ∈ out.calls ↔
                c = (domainOf e, userOf e, destOf e) ∨ c ∈ (addPass o H E rest).calls) := by
            intro out hout
            rw [hout, List.mem_cons]
          by_cases h4 : addSucceeds o (domainOf e) (userOf e) (destOf e) = true
      <;> [rw [if_pos h4]; rw [if_neg h4]]
      <;> rw [hcons _ rfl]
      <;> simp only [ih]
      <;> constructor
          · rintro (rfl | ⟨e', he', a1, a2, a3, rfl⟩)
            · exact ⟨e, List.mem_cons_self e rest, h1, h2, h3, rfl⟩
            · exact ⟨e', List.mem_cons_of_mem e he', a1, a2, a3, rfl⟩
          · rintro ⟨e', he', a1, a2, a3, rfl⟩
            rcases List.mem_cons.mp he' with rfl | he'
            · exact Or.inl rfl
            · exact Or.inr ⟨e', he', a1, a2, a3, rfl⟩
          · rintro (rfl | ⟨e', he', a1, a2, a3, rfl⟩)
            · exact ⟨e, List.mem_cons_self e rest, h1, h2, h3, rfl⟩
            · exact ⟨e', List.mem_cons_of_mem e he', a1, a2, a3, rfl⟩
          · rintro ⟨e', he', a1, a2, a3, rfl⟩
            rcases List.mem_cons.mp he' with rfl | he'
            · exact Or.inl rfl
            · exact Or.inr ⟨e', he', a1, a2, a3, rfl⟩
      · rw [if_neg h2]
        rw [ih]
        constructor
        · rintro ⟨e', he', a1, a2, a3, rfl⟩
          exact ⟨e', List.mem_cons_of_mem e he', a1, a2, a3, rfl⟩
        · rintro ⟨e', he', a1, a2, a3, rfl⟩
          rcases List.mem_cons.mp he' with rfl | he'
          · exact absurd a2 h2
          · exact ⟨e', he', a1, a2, a3, rfl⟩
    · rw [if_neg h1]
      rw [ih]
      constructor
      · rintro ⟨e', he', a1, a2, a3, rfl⟩
        exact ⟨e', List.mem_cons_of_mem e he', a1, a2, a3, rfl⟩
      · rintro ⟨e', he', a1, a2, a3, rfl⟩
        rcases List.mem_cons.mp he' with rfl | he'
        · exact absurd a1 h1
        · exact ⟨e', he', a1, a2, a3, rfl⟩

theorem delPass_calls_mem (o : Oracle) (X E : List Str) (cf cd cu : Str) :
    (cf, cd, cu) ∈ (delPass o X E).calls ↔
      cf ∈ E ∧ containsMarker cf = true ∧ cf ∉ X ∧
        cd = (splitAmp (replaceZoho cf)).getD 1 [] ∧
        cu = (splitAmp (replaceZoho cf)).getD 0 [] := by
  induction E with
  | nil => simp [delPass]
  | cons f rest ih =>
    simp only [delPass]
    by_cases h1 : containsMarker f = true ∧ f ∉ X
    · rw [if_pos h1]
      have hlen : 2 ≤ (splitAmp (replaceZoho f)).length := marker_parts_length f h1.1
      rw [if_pos hlen]
      have hcons : ∀ out : DelOut,
          out.calls = (f, (splitAmp (replaceZoho f)).getD 1 [],
            (splitAmp (replaceZoho f)).getD 0 []) :: (delPass o X rest).calls →
          ((cf, cd, cu) ∈ out.calls ↔
            (cf, cd, cu) = (f, (splitAmp (replaceZoho f)).getD 1 [],
              (splitAmp (replaceZoho f)).getD 0 []) ∨
              (cf, cd, cu) ∈ (delPass o X rest).calls) := by
        intro out hout
        rw [hout, List.mem_cons]
      by_cases h4 : delSucceeds o ((splitAmp (replaceZoho f)).getD 1 [])
          ((splitAmp (replaceZoho f)).getD 0 []) = true
  <;> [rw [if_pos h4]; rw [if_neg h4]]
  <;> rw [hcons _ rfl]
  <;> rw [ih]
  <;> constructor
      · rintro (heq | ⟨b1, b2, b3, b4, b5⟩)
        · injection heq with hf hrest
          injection hrest with hd hu
          subst hf
          exact ⟨List.mem_cons_self _ _, h1.1, h1.2, hd, hu⟩
        · exact ⟨List.mem_cons_of_mem f b1, b2, b3, b4, b5⟩
      · rintro ⟨b1, b2, b3, b4, b5⟩
        rcases List.mem_cons.mp b1 with rfl | b1
        · subst b4; subst b5; exact Or.inl rfl
        · exact Or.inr ⟨b1, b2, b3, b4, b5⟩
      · rintro (heq | ⟨b1, b2, b3, b4, b5⟩)
        · injection heq with hf hrest
          injection hrest with hd hu
          subst hf
          exact ⟨List.mem_cons_self _ _, h1.1, h1.2, hd, hu⟩
        · exact ⟨List.mem_cons_of_mem f b1, b2, b3, b4, b5⟩
      · rintro ⟨b1, b2, b3, b4, b5⟩
        rcases List.mem_cons.mp b1 with rfl | b1
        · subst b4; subst b5; exact Or.inl rfl
        · exact Or.inr ⟨b1, b2, b3, b4, b5⟩
    · rw [if_neg h1]
      rw [ih]
      constructor
      · rintro ⟨b1, b2, b3, b4, b5⟩
        exact ⟨List.mem_cons_of_mem f b1, b2, b3, b4, b5⟩
      · rintro ⟨b1, b2, b3, b4, b5⟩
        rcases List.mem_cons.mp b1 with rfl | b1
        · exact absurd ⟨b2, b3⟩ h1
        · exact ⟨b1, b2, b3, b4, b5⟩

/-! ### The attempted calls do not depend on which calls succeed;
the counters count exactly the successful calls -/

theorem addPass_oracle (o o' : Oracle) (H E D : List Str) :
    (addPass o H E D).calls = (addPass o' H E D).calls ∧
      (addPass o H E D).skipped = (addPass o' H E D).skipped := by
  induction D with
  | nil => exact ⟨rfl, rfl⟩
  | cons e rest ih =>
    simp only [addPass]
    by_cases h1 : '@' ∈ e
    · rw [if_pos h1, if_pos h1]
      by_cases h2 : domainOf e ∈ H
      · rw [if_pos h2, if_pos h2]
        by_cases h3 : destOf e ∈ E
        · rw [if_pos h3, if_pos h3]
          exact ⟨ih.1, by simp [ih.2]⟩
        · rw [if_neg h3, if_neg h3]
          cases addSucceeds o (domainOf e) (userOf e) (destOf e) <;>
            cases addSucceeds o' (domainOf e) (userOf e) (destOf e) <;>
            exact ⟨by simp [ih.1], ih.2⟩
      · rw [if_neg h2, if_neg h2]
        exact ih
    · rw [if_neg h1, if_neg h1]
      exact ih

theorem addPass_added_filter (o : Oracle) (H E D : List Str) :
    (addPass o H E D).added =
      ((addPass o H E D).calls.filter
        (fun c => addSucceeds o c.1 c.2.1 c.2.2)).length := by
  induction D with
  | nil => rfl
  | cons e rest ih =>
    simp only [addPass]
    by_cases h1 : '@' ∈ e
    · rw [if_pos h1]
      by_cases h2 : domainOf e ∈ H
      · rw [if_pos h2]
        by_cases h3 : destOf e ∈ E
        · rw [if_pos h3]
          exact ih
        · rw [if_neg h3]
          by_cases h4 : addSucceeds o (domainOf e) (userOf e) (destOf e) = true
          · rw [if_pos h4]
            simp only [List.filter_cons, h4, if_true, List.length_cons]
            simp [ih]
          · rw [if_neg h4]
            simp only [List.filter_cons]
            rw [show addSucceeds o (domainOf e, userOf e, destOf e).1
                (domainOf e, userOf e, destOf e).2.1
                (domainOf e, userOf e, destOf e).2.2 = false from
              Bool.not_eq_true _ ▸ eq_false_of_ne_true h4]
            simpa using ih
      · rw [if_neg h2]
        exact ih
    · rw [if_neg h1]
      exact ih

theorem delPass_oracle (o o' : Oracle) (X E : List Str) :
    (delPass o X E).calls = (delPass o' X E).calls := by
  induction E with
  | nil => rfl
  | cons f rest ih =>
    simp only [delPass]
    by_cases h1 : containsMarker f = true ∧ f ∉ X
    · rw [if_pos h1, if_pos h1]
      by_cases hlen : 2 ≤ (splitAmp (replaceZoho f)).length
      · rw [if_pos hlen, if_pos hlen]
        cases delSucceeds o ((splitAmp (replaceZoho f)).getD 1 [])
            ((splitAmp (replaceZoho f)).getD 0 []) <;>
          cases delSucceeds o' ((splitAmp (replaceZoho f)).getD 1 [])
              ((splitAmp (replaceZoho f)).getD 0 []) <;>
          simp [ih]
      · rw [if_neg hlen, if_neg hlen]
        exact ih
    · rw [if_neg h1, if_neg h1]
      exact ih

theorem delPass_removed_filter (o : Oracle) (X E : List Str) :
    (delPass o X E).removed =
      ((delPass o X E).calls.filter
        (fun c => delSucceeds o c.2.1 c.2.2)).length := by
  induction E with
  | nil => rfl
  | cons f rest ih =>
    simp only [delPass]
    by_cases h1 : containsMarker f = true ∧ f ∉ X
    · rw [if_pos h1]
      by_cases hlen : 2 ≤ (splitAmp (replaceZoho f)).length
      · rw [if_pos hlen]
        by_cases h4 : delSucceeds o ((splitAmp (replaceZoho f)).getD 1 [])
            ((splitAmp (replaceZoho f)).getD 0 []) = true
        · rw [if_pos h4]
          simp only [List.filter_cons, h4, if_true, List.length_cons]
          simp [ih]
        · rw [if_neg h4]
          simp only [List.filter_cons]
          rw [show delSucceeds o
              (f, (splitAmp (replaceZoho f)).getD 1 [],
                (splitAmp (replaceZoho f)).getD 0 []).2.1
              (f, (splitAmp (replaceZoho f)).getD 1 [],
                (splitAmp (replaceZoho f)).getD 0 []).2.2 = false from
            eq_false_of_ne_true h4]
          simpa using ih
      · rw [if_neg hlen]
        exact ih
    · rw [if_neg h1]
      exact ih

/-! ### No-op lemmas for the second-run argument -/

theorem addPass_all_present (o : Oracle) (H E D : List Str)
    (h : ∀ e ∈ D, '@' ∈ e → domainOf e ∈ H → destOf e ∈ E) :
    addPass o H E D =
      ⟨0, (D.filter (fun e => decide ('@' ∈ e ∧ domainOf e ∈ H))).length, []⟩ := by
  induction D with
  | nil => rfl
  | cons e rest ih =>
    have he := h e (List.mem_cons_self e rest)
    have hrest : ∀ e' ∈ rest, '@' ∈ e' → domainOf e' ∈ H → destOf e' ∈ E :=
      fun e' he' => h e' (List.mem_cons_of_mem e he')
    simp only [addPass, List.filter_cons]
    by_cases h1 : '@' ∈ e
    · rw [if_pos h1]
      by_cases h2 : domainOf e ∈ H
      · rw [if_pos h2, if_pos (he h1 h2)]
        rw [ih hrest]
        have hd : decide ('@' ∈ e ∧ domainOf e ∈ H) = true := by
          simp [h1, h2]
        rw [hd]
        simp
      · rw [if_neg h2]
        rw [ih hrest]
        have hd : decide ('@' ∈ e ∧ domainOf e ∈ H) = false := by
          simp [h2]
        rw [hd]
        simp
    · rw [if_neg h1]
      rw [ih hrest]
      have hd : decide ('@' ∈ e ∧ domainOf e ∈ H) = false := by
        simp [h1]
      rw [hd]
      simp

theorem delPass_no_candidates (o : Oracle) (X E : List Str)
    (h : ∀ f ∈ E, containsMarker f = true → f ∈ X) :
    delPass o X E = ⟨0, []⟩ := by
  induction E with
  | nil => rfl
  | cons f rest ih =>
    have hrest : ∀ f' ∈ rest, containsMarker f' = true → f' ∈ X :=
      fun f' hf' => h f' (List.mem_cons_of_mem f hf')
    simp only [delPass]
    rw [if_neg, ih hrest]
    rintro ⟨h1, h2⟩
    exact h2 (h f (List.mem_cons_self f rest) h1)

theorem syncForwarders_eq (o : Oracle) (D H E : List Str) :
    syncForwarders o D H E =
      ⟨(addPass o H E D).added, (addPass o H E D).skipped,
        (delPass o (createExpectedForwarders D H) E).removed,
        (addPass o H E D).calls,
        (delPass o (createExpectedForwarders D H) E).calls⟩ := rfl

/-! ### The claims -/

/-- Claim C1: for every directory mailbox set D and hosted-domain set H,
create_expected_forwarders D H contains exactly the strings
user ++ "@zoho." ++ domain such that user ++ "@" ++ domain is in D
(user being the text before the first `@`, domain the text after it)
and domain is in H; nothing else is in the result. -/
theorem claim_C1 (D H : List Str) (s : Str) :
    s ∈ createExpectedForwarders D H ↔
      ∃ user domain : Str, '@' ∉ user ∧ (user ++ '@' :: domain) ∈ D ∧
        domain ∈ H ∧ s = user ++ marker ++ domain := by
  rw [mem_createExpectedForwarders]
  constructor
  · rintro ⟨e, he, h1, h2, rfl⟩
    refine ⟨userOf e, domainOf e, at_not_mem_userOf e, ?_, h2, rfl⟩
    rw [← split_reconstruct e h1]
    exact he
  · rintro ⟨user, domain, hu, hmem, hH, rfl⟩
    refine ⟨user ++ '@' :: domain, hmem, ?_, ?_, ?_⟩
    · exact List.mem_append.mpr (Or.inr (List.mem_cons_self _ _))
    · rw [domainOf_append user domain hu]
      exact hH
    · rw [destOf, userOf_append user domain hu, domainOf_append user domain hu]

/-- Claim C1, instantiated: the end-to-end scenario of the spec. -/
theorem claim_C1_witness :
    "bob@zoho.example.com".data ∈
      createExpectedForwarders
        ["alice@example.com".data, "bob@example.com".data]
        ["example.com".data] :=
  (claim_C1 _ _ _).mpr
    ⟨"bob".data, "example.com".data, by decide, by decide, by decide, by decide⟩

/-- Claim C3: an existing forwarder whose destination does not contain
the substring `@zoho.` is never passed to delete_forwarder, whatever the
expected set is. -/
theorem claim_C3 (o : Oracle) (D H E : List Str) (f : Str)
    (h : containsMarker f = false) :
    f ∉ (syncForwarders o D H E).delCalls.map (fun c => c.1) := by
  rw [syncForwarders_eq]
  intro hmem
  obtain ⟨c, hc, hcf⟩ := List.mem_map.mp hmem
  obtain ⟨cf, cd, cu⟩ := c
  have hm := (delPass_calls_mem o _ E cf cd cu).mp hc
  have hcf2 : cf = f := hcf
  rw [hcf2] at hm
  rw [hm.2.1] at h
  cases h

/-- Claim C3, instantiated: existing forwarder alice@external.com with
an empty expected set is not deleted. -/
theorem claim_C3_witness :
    "alice@external.com".data ∉
      (syncForwarders oracleTrue [] [] ["alice@external.com".data]).delCalls.map
        (fun c => c.1) :=
  claim_C3 oracleTrue [] [] ["alice@external.com".data]
    "alice@external.com".data (by decide)

/-- Claim C5: per-item failure isolation — which calls are attempted
does not depend on which calls succeed (so one failure never prevents
the later attempts), the skipped counter is oracle-independent as well,
and the added/removed counters count exactly the successful calls. -/
theorem claim_C5 (o o' : Oracle) (D H E : List Str) :
    (syncForwarders o D H E).addCalls = (syncForwarders o' D H E).addCalls ∧
    (syncForwarders o D H E).delCalls = (syncForwarders o' D H E).delCalls ∧
    (syncForwarders o D H E).skipped = (syncForwarders o' D H E).skipped ∧
    (syncForwarders o D H E).added =
      ((syncForwarders o D H E).addCalls.filter
        (fun c => addSucceeds o c.1 c.2.1 c.2.2)).length ∧
    (syncForwarders o D H E).removed =
      ((syncForwarders o D H E).delCalls.filter
        (fun c => delSucceeds o c.2.1 c.2.2)).length := by
  rw [syncForwarders_eq, syncForwarders_eq]
  exact ⟨(addPass_oracle o o' H E D).1, delPass_oracle o o' _ E,
    (addPass_oracle o o' H E D).2, addPass_added_filter o H E D,
    delPass_removed_filter o _ E⟩

/-- Claim C6: the destinations for which a create is attempted lie in
expected-minus-existing, the destinations for which a delete is
attempted lie in existing-minus-expected, and the two sets are
disjoint. -/
theorem claim_C6 (o : Oracle) (D H E : List Str) :
    (∀ c ∈ (syncForwarders o D H E).addCalls,
        c.2.2 ∈ createExpectedForwarders D H ∧ c.2.2 ∉ E) ∧
    (∀ c ∈ (syncForwarders o D H E).delCalls,
        c.1 ∈ E ∧ c.1 ∉ createExpectedForwarders D H) ∧
    (∀ s : Str, s ∈ (syncForwarders o D H E).addCalls.map (fun c => c.2.2) →
        s ∉ (syncForwarders o D H E).delCalls.map (fun c => c.1)) := by
  rw [syncForwarders_eq]
  refine ⟨?_, ?_, ?_⟩
  · intro c hc
    obtain ⟨cd, cu, cdest⟩ := c
    obtain ⟨e, he, a1, a2, a3, heq⟩ := (addPass_calls_mem o H E D _).mp hc
    injection heq with q1 q2
    injection q2 with q2 q3
    subst q3
    exact ⟨(mem_createExpectedForwarders D H _).mpr ⟨e, he, a1, a2, rfl⟩, a3⟩
  · intro c hc
    obtain ⟨cf, cd, cu⟩ := c
    have hm := (delPass_calls_mem o _ E cf cd cu).mp hc
    exact ⟨hm.1, hm.2.2.1⟩
  · intro s hadd hdel
    obtain ⟨c, hc, hcf⟩ := List.mem_map.mp hadd
    obtain ⟨cd, cu, cdest⟩ := c
    obtain ⟨e, he, a1, a2, a3, heq⟩ := (addPass_calls_mem o H E D _).mp hc
    injection heq with q1 q2
    injection q2 with q2 q3
    obtain ⟨c', hc', hcf'⟩ := List.mem_map.mp hdel
    obtain ⟨cf', cd', cu'⟩ := c'
    have hm := (delPass_calls_mem o _ E cf' cd' cu').mp hc'
    apply hm.2.2.1
    have hcf2 : cdest = s := hcf
    have hcf2' : cf' = s := hcf'
    rw [hcf2', ← hcf2, q3]
    exact (mem_createExpectedForwarders D H _).mpr ⟨e, he, a1, a2, rfl⟩

/-- Claim C6, instantiated on the spec's end-to-end scenario: the one
destination added, bob@zoho.example.com, is not also deleted. -/
theorem claim_C6_witness :
    "bob@zoho.example.com".data ∉
      (syncForwarders oracleTrue
        ["alice@example.com".data, "bob@example.com".data]
        ["example.com".data]
        ["alice@zoho.example.com".data]).delCalls.map (fun c => c.1) :=
  (claim_C6 oracleTrue
      ["alice@example.com".data, "bob@example.com".data]
      ["example.com".data]
      ["alice@zoho.example.com".data]).2.2
    "bob@zoho.example.com".data (by decide)

/-- Claim C7: whenever sync_forwarders issues a delete for a managed
forwarder, the user and domain it passes to delete_forwarder are
exactly what the specification's reverse mapping prescribes:
substitute the first occurrence of `@zoho.` back to `@`, split on `@`,
user is the text before the first `@` and domain the text between the
first and second `@`. -/
theorem claim_C7 (o : Oracle) (D H E : List Str) (c : Str × Str × Str)
    (h : c ∈ (syncForwarders o D H E).delCalls) :
    c.2.2 = specReverseUser c.1 ∧ c.2.1 = specReverseDomain c.1 := by
  obtain ⟨cf, cd, cu⟩ := c
  rw [syncForwarders_eq] at h
  have hm := (delPass_calls_mem o _ E cf cd cu).mp h
  constructor
  · rw [hm.2.2.2.2, specReverseUser, splitAmp_getD0, splitAmp_getD0,
      takeWhile_replaceZoho, takeWhile_replaceZohoFirst]
  · rw [hm.2.2.2.1, specReverseDomain, splitAmp_getD1, splitAmp_getD1,
      field1_replace_agree]

/-- Claim C7, instantiated: deleting the obsolete bob@zoho.example.com
passes user bob and domain example.com. -/
theorem claim_C7_witness :
    ("bob@zoho.example.com".data, "example.com".data, "bob".data).2.2 =
      specReverseUser ("bob@zoho.example.com".data, "example.com".data,
        "bob".data).1 ∧
    ("bob@zoho.example.com".data, "example.com".data, "bob".data).2.1 =
      specReverseDomain ("bob@zoho.example.com".data, "example.com".data,
        "bob".data).1 :=
  claim_C7 oracleTrue [] [] ["bob@zoho.example.com".data]
    ("bob@zoho.example.com".data, "example.com".data, "bob".data) (by decide)

/-- Claim C9: the translation directory-address → destination-address is
injective on addresses containing `@`, so each expected forwarder comes
from exactly one directory address. -/
theorem claim_C9 (e₁ e₂ : Str) (h₁ : '@' ∈ e₁) (h₂ : '@' ∈ e₂)
    (h : destOf e₁ = destOf e₂) : e₁ = e₂ := by
  have hu : userOf e₁ = userOf e₂ := by
    rw [← userOf_destOf e₁, ← userOf_destOf e₂, h]
  have hd : domainOf e₁ = domainOf e₂ := by
    have hcong := congrArg domainOf h
    rw [domainOf_destOf, domainOf_destOf] at hcong
    simpa using hcong
  calc e₁ = userOf e₁ ++ '@' :: domainOf e₁ := split_reconstruct e₁ h₁
    _ = userOf e₂ ++ '@' :: domainOf e₂ := by rw [hu, hd]
    _ = e₂ := (split_reconstruct e₂ h₂).symm

/-- Claim C9, instantiated. -/
theorem claim_C9_witness : "alice@example.com".data = "alice@example.com".data :=
  claim_C9 "alice@example.com".data "alice@example.com".data
    (by decide) (by decide) (by decide)

/-- Claim C10: the add pass re-derives destinations inline, and the two
derivations agree — the set of destinations for which add_forwarder is
invoked is exactly create_expected_forwarders D H minus the existing
set. -/
theorem claim_C10 (o : Oracle) (D H E : List Str) (s : Str) :
    s ∈ (syncForwarders o D H E).addCalls.map (fun c => c.2.2) ↔
      s ∈ createExpectedForwarders D H ∧ s ∉ E := by
  rw [syncForwarders_eq]
  constructor
  · intro hadd
    obtain ⟨c, hc, hcf⟩ := List.mem_map.mp hadd
    obtain ⟨cd, cu, cdest⟩ := c
    obtain ⟨e, he, a1, a2, a3, heq⟩ := (addPass_calls_mem o H E D _).mp hc
    injection heq with q1 q2
    injection q2 with q2 q3
    have hcf2 : cdest = s := hcf
    rw [← hcf2, q3]
    exact ⟨(mem_createExpectedForwarders D H _).mpr ⟨e, he, a1, a2, rfl⟩, a3⟩
  · rintro ⟨h1, h2⟩
    obtain ⟨e, he, a1, a2, rfl⟩ := (mem_createExpectedForwarders D H s).mp h1
    exact List.mem_map.mpr
      ⟨(domainOf e, userOf e, destOf e),
        (addPass_calls_mem o H E D _).mpr ⟨e, he, a1, a2, h2, rfl⟩, rfl⟩

/-- Claim C2: idempotence of reconciliation — if every create and delete
call of the first run succeeds, a second run on the updated existing
set with the same directory mailboxes and domains adds nothing and
removes nothing, and every eligible address lands in the skipped
count. -/
theorem claim_C2 (o o₂ : Oracle) (D H E : List Str)
    (h : allCallsSucceed o (syncForwarders o D H E)) :
    (syncForwarders o₂ D H
        (updatedExisting o E (syncForwarders o D H E))).added = 0 ∧
    (syncForwarders o₂ D H
        (updatedExisting o E (syncForwarders o D H E))).removed = 0 ∧
    (syncForwarders o₂ D H
        (updatedExisting o E (syncForwarders o D H E))).skipped =
      (D.filter (eligible H)).length := by
  have haddf : (syncForwarders o D H E).addCalls.filter
      (fun c => addSucceeds o c.1 c.2.1 c.2.2) =
      (syncForwarders o D H E).addCalls := List.filter_eq_self.mpr h.1
  have hdelf : (syncForwarders o D H E).delCalls.filter
      (fun c => delSucceeds o c.2.1 c.2.2) =
      (syncForwarders o D H E).delCalls := List.filter_eq_self.mpr h.2
  have hE' : ∀ f : Str, f ∈ updatedExisting o E (syncForwarders o D H E) ↔
      ((f ∈ E ∨ f ∈ (syncForwarders o D H E).addCalls.map (fun c => c.2.2)) ∧
        f ∉ (syncForwarders o D H E).delCalls.map (fun c => c.1)) := by
    intro f
    rw [updatedExisting, haddf, hdelf]
    simp only [List.mem_filter, List.mem_append, decide_eq_true_eq]
  have hAdd : ∀ e ∈ D, '@' ∈ e → domainOf e ∈ H →
      destOf e ∈ updatedExisting o E (syncForwarders o D H E) := by
    intro e he h1 h2
    rw [hE']
    constructor
    · by_cases h3 : destOf e ∈ E
      · exact Or.inl h3
      · refine Or.inr (List.mem_map.mpr
          ⟨(domainOf e, userOf e, destOf e), ?_, rfl⟩)
        rw [syncForwarders_eq]
        exact (addPass_calls_mem o H E D _).mpr ⟨e, he, h1, h2, h3, rfl⟩
    · intro hmem
      obtain ⟨c, hc, hcf⟩ := List.mem_map.mp hmem
      obtain ⟨cf, cd, cu⟩ := c
      rw [syncForwarders_eq] at hc
      have hm := (delPass_calls_mem o _ E cf cd cu).mp hc
      apply hm.2.2.1
      have hcf2 : cf = destOf e := hcf
      rw [hcf2]
      exact (mem_createExpectedForwarders D H _).mpr ⟨e, he, h1, h2, rfl⟩
  have hDel : ∀ f ∈ updatedExisting o E (syncForwarders o D H E),
      containsMarker f = true → f ∈ createExpectedForwarders D H := by
    intro f hf hmk
    rw [hE'] at hf
    rcases hf.1 with hfe | hfadd
    · by_contra hnx
      apply hf.2
      refine List.mem_map.mpr
        ⟨(f, (splitAmp (replaceZoho f)).getD 1 [],
          (splitAmp (replaceZoho f)).getD 0 []), ?_, rfl⟩
      rw [syncForwarders_eq]
      exact (delPass_calls_mem o _ E f _ _).mpr ⟨hfe, hmk, hnx, rfl, rfl⟩
    · obtain ⟨c, hc, hcf⟩ := List.mem_map.mp hfadd
      obtain ⟨cd, cu, cdest⟩ := c
      rw [syncForwarders_eq] at hc
      obtain ⟨e, he, a1, a2, a3, heq⟩ := (addPass_calls_mem o H E D _).mp hc
      injection heq with q1 q2
      injection q2 with q2 q3
      have hcf2 : cdest = f := hcf
      rw [← hcf2, q3]
      exact (mem_createExpectedForwarders D H _).mpr ⟨e, he, a1, a2, rfl⟩
  rw [syncForwarders_eq,
    addPass_all_present o₂ H (updatedExisting o E (syncForwarders o D H E)) D hAdd,
    delPass_no_candidates o₂ (createExpectedForwarders D H)
      (updatedExisting o E (syncForwarders o D H E)) hDel]
  exact ⟨rfl, rfl, rfl⟩

/-- Claim C2, instantiated: a successful first run on the spec's
end-to-end scenario (plus one obsolete managed forwarder) leaves a
second run with nothing to add or remove and two skips. -/
theorem claim_C2_witness :
    (syncForwarders oracleTrue
        ["alice@example.com".data, "bob@example.com".data]
        ["example.com".data]
        (updatedExisting oracleTrue
          ["alice@zoho.example.com".data, "old@zoho.example.com".data]
          (syncForwarders oracleTrue
            ["alice@example.com".data, "bob@example.com".data]
            ["example.com".data]
            ["alice@zoho.example.com".data, "old@zoho.example.com".data]))).added
        = 0 ∧
    (syncForwarders oracleTrue
        ["alice@example.com".data, "bob@example.com".data]
        ["example.com".data]
        (updatedExisting oracleTrue
          ["alice@zoho.example.com".data, "old@zoho.example.com".data]
          (syncForwarders oracleTrue
            ["alice@example.com".data, "bob@example.com".data]
            ["example.com".data]
            ["alice@zoho.example.com".data, "old@zoho.example.com".data]))).removed
        = 0 ∧
    (syncForwarders oracleTrue
        ["alice@example.com".data, "bob@example.com".data]
        ["example.com".data]
        (updatedExisting oracleTrue
          ["alice@zoho.example.com".data, "old@zoho.example.com".data]
          (syncForwarders oracleTrue
            ["alice@example.com".data, "bob@example.com".data]
            ["example.com".data]
            ["alice@zoho.example.com".data, "old@zoho.example.com".data]))).skipped
        = (["alice@example.com".data, "bob@example.com".data].filter
            (eligible ["example.com".data])).length :=
  claim_C2 oracleTrue oracleTrue
    ["alice@example.com".data, "bob@example.com".data]
    ["example.com".data]
    ["alice@zoho.example.com".data, "old@zoho.example.com".data]
    ⟨by decide, by decide⟩

/-- Claim C4 is false as stated: for existing forwarder "weird@zoho."
(whose reverse split yields the parts "weird" and "", not two non-empty
parts) with an empty expected set, sync_forwarders DOES call
delete_forwarder — with user "weird" and empty domain. -/
theorem claim_C4_counterexample :
    ("weird@zoho.".data, ([] : Str), "weird".data) ∈
      (syncForwarders oracleTrue [] [] ["weird@zoho.".data]).delCalls := by
  decide

/-- Claim C4, amended: the sync-level guard only requires at least two
parts, possibly empty, so a removal candidate whose recovered user or
domain is empty IS passed to delete_forwarder; that call fails
delete_forwarder's own required-argument guard before any API request,
whatever the remote API would answer, the error is caught, and the
forwarder is not counted as removed.  In particular, for
existing = ["weird@zoho."] and an empty expected set, delete_forwarder
is called with user "weird" and empty domain, no deletion is performed
and removed = 0. -/
theorem claim_C4_amended (o : Oracle) (D H E : List Str) :
    (∀ c ∈ (syncForwarders o D H E).delCalls,
        (c.2.1 = ([] : Str) ∨ c.2.2 = ([] : Str)) →
          delSucceeds o c.2.1 c.2.2 = false) ∧
    (syncForwarders o [] [] ["weird@zoho.".data]).delCalls =
      [("weird@zoho.".data, ([] : Str), "weird".data)] ∧
    (syncForwarders o [] [] ["weird@zoho.".data]).removed = 0 ∧
    delSucceeds o ([] : Str) "weird".data = false := by
  refine And.intro (fun c _ hemp => by rw [delSucceeds, if_pos hemp]) ?_
  have hg1 : (splitAmp (replaceZoho "weird@zoho.".data)).getD 1 [] = ([] : Str) := by
    decide
  have hg0 : (splitAmp (replaceZoho "weird@zoho.".data)).getD 0 [] =
      "weird".data := by decide
  have hsucc : delSucceeds o ((splitAmp (replaceZoho "weird@zoho.".data)).getD 1 [])
      ((splitAmp (replaceZoho "weird@zoho.".data)).getD 0 []) = false := by
    rw [hg1]
    simp [delSucceeds]
  have hkey : delPass o (createExpectedForwarders [] []) ["weird@zoho.".data] =
      ⟨0, [("weird@zoho.".data, ([] : Str), "weird".data)]⟩ := by
    simp only [delPass]
    rw [if_pos (by decide : containsMarker "weird@zoho.".data = true ∧
      ("weird@zoho.".data : Str) ∉ createExpectedForwarders [] [])]
    rw [if_pos (by decide : 2 ≤ (splitAmp (replaceZoho "weird@zoho.".data)).length)]
    rw [if_neg (by rw [hsucc]; simp)]
    rw [hg1, hg0]
  refine ⟨?_, ?_, by simp [delSucceeds]⟩
  · rw [syncForwarders_eq, hkey]
  · rw [syncForwarders_eq, hkey]

/-- Claim C8 is false as stated: the code only checks that the address
contains an `@`; an address with an empty local part (or more than one
`@`, or an empty domain present in H) is not rejected.  Here
"@example.com" is translated into the expected set and an add is
attempted for it. -/
theorem claim_C8_counterexample :
    "@zoho.example.com".data ∈
      createExpectedForwarders ["@example.com".data] ["example.com".data] ∧
    ("example.com".data, ([] : Str), "@zoho.example.com".data) ∈
      (syncForwarders oracleTrue ["@example.com".data] ["example.com".data]
        []).addCalls := by
  decide

/-- Claim C8, amended: a directory address is translated (and an add
attempted) exactly when it contains at least one `@` and the text
after its first `@` is a hosted domain; an address with no `@` is
skipped without aborting the run and contributes nothing to the
expected set or to the attempted adds, but no exactly-one-`@` or
non-emptiness validation is performed. -/
theorem claim_C8_amended (o : Oracle) (H E D : List Str) (e : Str)
    (h : '@' ∉ e) :
    createExpectedForwarders (e :: D) H = createExpectedForwarders D H ∧
    syncForwarders o (e :: D) H E = syncForwarders o D H E := by
  have h1 : ¬('@' ∈ e ∧ domainOf e ∈ H) := fun hh => h hh.1
  have hx : createExpectedForwarders (e :: D) H =
      createExpectedForwarders D H := by
    simp only [createExpectedForwarders]
    rw [if_neg h1]
  refine ⟨hx, ?_⟩
  rw [syncForwarders_eq, syncForwarders_eq]
  have ha : addPass o H E (e :: D) = addPass o H E D := by
    simp only [addPass]
    rw [if_neg h]
  rw [ha, hx]

/-- Claim C8 amended, instantiated: the address "invalid" (no `@`) is
dropped without any effect on the run. -/
theorem claim_C8_amended_witness :
    createExpectedForwarders ["invalid".data, "alice@example.com".data]
        ["example.com".data] =
      createExpectedForwarders ["alice@example.com".data]
        ["example.com".data] ∧
    syncForwarders oracleTrue ["invalid".data, "alice@example.com".data]
        ["example.com".data] [] =
      syncForwarders oracleTrue ["alice@example.com".data]
        ["example.com".data] [] :=
  claim_C8_amended oracleTrue ["example.com".data] []
    ["alice@example.com".data] "invalid".data (by decide)

/-- Claim C10, instantiated on the spec's end-to-end scenario. -/
theorem claim_C10_witness :
    "bob@zoho.example.com".data ∈
      (syncForwarders oracleTrue
        ["alice@example.com".data, "bob@example.com".data]
        ["example.com".data]
        ["alice@zoho.example.com".data]).addCalls.map (fun c => c.2.2) :=
  (claim_C10 oracleTrue
      ["alice@example.com".data, "bob@example.com".data]
      ["example.com".data]
      ["alice@zoho.example.com".data] "bob@zoho.example.com".data).mpr
    ⟨by decide, by decide⟩

end ZMX
